import Mathlib

/-!
# Verification of the gofull feed proxy core

Shallow embedding of the content-extraction dispatch and feed-assembly
pipeline of the `gofull` repository: the extractor registry
(`internal/extractors/extractor.go`), the TTL result cache
(`internal/app/cache.go`), the URL allow/block filter
(`internal/filters/url_filter.go`), the feed assembler
(`internal/app/feed_handler.go`) and the request `limit` parsing
(`feed_handler.go` / `main.go`).

Go strings that are manipulated byte-wise by the source (slicing,
truncation) are embedded as lists of bytes (`GoStr`); strings that the
source only compares or searches are embedded as Lean `String`s.  Values
the source obtains from the outside world (HTTP fetches, the HTML
parser's output, UUIDs, wall-clock time) are parameters of the embedded
functions, and `time.Now()` is an explicit `Int` argument threaded where
the source reads the clock.
-/

namespace Extractors

/-- Result of `Registry.ForURL`: either a registered extractor value or the
always-failing `defaultExtractorStub`.  The extractor itself is abstract
(`E`): the registry never inspects it. -/
inductive ForURLResult (E : Type) where
  | registered (e : E)
  | stub
deriving DecidableEq, Repr

/-- `Registry` as declared in `internal/extractors/extractor.go`: it holds
only the default fallback extractor (`defaultExtractor Extractor`, `nil`
when unset). -/
structure Registry (E : Type) where
  defaultExtractor : Option E
deriving DecidableEq, Repr

/-- `NewRegistry` returns `&Registry{}`: no default extractor. -/
def NewRegistry (E : Type) : Registry E :=
  ⟨none⟩

/-- `Registry.RegisterDefault` sets the fallback; last write wins. -/
def Registry.RegisterDefault (r : Registry E) (e : E) : Registry E :=
  { r with defaultExtractor := some e }

/-- `Registry.ForURL` from `internal/extractors/extractor.go` lines 34-39:
returns the default extractor when one is set, else the stub.  The `url`
argument is never inspected. -/
def Registry.ForURL (r : Registry E) (url : String) : ForURLResult E :=
  match r.defaultExtractor with
  | some e => ForURLResult.registered e
  | none => ForURLResult.stub

end Extractors

namespace ExtractorsSpec

/-- An ASCII character lowered, as Go's domain normalization lowers hosts. -/
def lowerChar (c : Char) : Char :=
  if 'A' ≤ c ∧ c ≤ 'Z' then Char.ofNat (c.toNat + 32) else c

/-- A host label lowered character by character. -/
def lowerLabel (s : String) : String :=
  ⟨s.data.map lowerChar⟩

/-- A host or domain as its dot-separated labels, most specific first:
`sub.example.com` is `["sub", "example", "com"]`. -/
abbrev Host := List String

/-- Modelled from the spec: domain normalization for `registerDomain`
(spec section 4.1: "normalizes domain (lowercase, strip `www.`, strip
port)").  The port never appears among the labels of a `Host`; lowering
and the `www.` strip are explicit. -/
def normalizeDomain (d : Host) : Host :=
  match d.map lowerLabel with
  | "www" :: rest => rest
  | other => other

/-- Modelled from the spec: the host with a `www.` prefix toggled, used by
resolution step (b) of spec section 4.1. -/
def toggleWWW (h : Host) : Host :=
  if h.head? = some "www" then h.tail else "www" :: h

/-- Modelled from the spec: the registry that `NewServer`
(`internal/app/server.go` lines 38-77) populates through
`RegisterDomain`.  `RegisterDomain`, `DomainExtractors` and the
domain-matching resolution are called there but their definitions are not
among the repository's files; only the default-only `Registry` of
`internal/extractors/extractor.go` is.  The domain map and resolution
below follow spec section 4.1. -/
structure RegistryM (E : Type) where
  domainExtractors : List (Host × E)
  defaultExtractor : Option E
deriving DecidableEq, Repr

/-- Lookup of an exact normalized key in the domain map. -/
def lookupDomain (m : List (Host × E)) (key : Host) : Option E :=
  match m with
  | [] => none
  | (k, e) :: rest => if k = key then some e else lookupDomain rest key

/-- Modelled from the spec: `registerDomain(domain, extractor)` stores the
normalized domain; re-registering a domain overwrites silently (spec
section 4.1). -/
def RegistryM.RegisterDomain (r : RegistryM E) (d : Host) (e : E) : RegistryM E :=
  { r with domainExtractors :=
      (normalizeDomain d, e) ::
        r.domainExtractors.filter (fun p => p.1 ≠ normalizeDomain d) }

/-- Modelled from the spec: `registerDefault(extractor)`. -/
def RegistryM.RegisterDefault (r : RegistryM E) (e : E) : RegistryM E :=
  { r with defaultExtractor := some e }

/-- Modelled from the spec, resolution steps (a)-(c) of spec section 4.1
on an already-extracted host: try the exact host, the host with `www.`
toggled, then strip leading subdomain labels and repeat; first match
wins. -/
def resolveHost (m : List (Host × E)) : Host → Option E
  | [] => none
  | lbl :: rest =>
    match lookupDomain m (lbl :: rest) with
    | some e => some e
    | none =>
      match lookupDomain m (toggleWWW (lbl :: rest)) with
      | some e => some e
      | none => resolveHost m rest

/-- Modelled from the spec: `resolve(url)` after URL parsing has produced
the host, lowered as normalization requires.  A domain-map hit returns
that extractor; otherwise the default; otherwise the always-failing
stub. -/
def RegistryM.ForURLHost (r : RegistryM E) (host : Host) : Extractors.ForURLResult E :=
  match resolveHost r.domainExtractors (host.map lowerLabel) with
  | some e => Extractors.ForURLResult.registered e
  | none =>
    match r.defaultExtractor with
    | some e => Extractors.ForURLResult.registered e
    | none => Extractors.ForURLResult.stub

end ExtractorsSpec

namespace App

/-- `CachedEntry` from `internal/app/cache.go`: value and the `time.Now()`
at which `Set` stored it (modelled as an `Int` timestamp). -/
structure CachedEntry where
  Value : String
  Timestamp : Int
deriving DecidableEq, Repr

/-- The Go `map[string]CachedEntry` backing the cache, as an association
list; the embedded `Set` keeps keys unique. -/
abbrev CacheItems := List (String × CachedEntry)

/-- Lookup in the backing map: the entry stored at `key`, if any. -/
def itemsFind : CacheItems → String → Option CachedEntry
  | [], _ => none
  | (k, e) :: rest, key => if k = key then some e else itemsFind rest key

/-- `delete(c.items, key)` on the backing map. -/
def itemsDelete (l : CacheItems) (key : String) : CacheItems :=
  l.filter (fun p => p.1 ≠ key)

/-- `Cache` from `internal/app/cache.go`: the item map and the TTL.
The `sync.RWMutex` only guards the map; the lock itself carries no state
relevant to the sequential semantics embedded here. -/
structure Cache where
  items : CacheItems
  ttl : Int
deriving DecidableEq, Repr

/-- `Cache.Get` (cache.go lines 31-46): a missing key returns
`("", false)`; an entry with `time.Since(entry.Timestamp) > c.ttl` is
stale, deleted, and reported absent; otherwise the value is returned.
`now` stands for the clock read inside `time.Since`.  The pair is (the
returned value if found, the cache after the call). -/
def Cache.Get (c : Cache) (now : Int) (key : String) : Option String × Cache :=
  match itemsFind c.items key with
  | none => (none, c)
  | some entry =>
    if now - entry.Timestamp > c.ttl then
      (none, { c with items := itemsDelete c.items key })
    else
      (some entry.Value, c)

/-- `Cache.Set` (cache.go lines 49-53): stores
`CachedEntry{Value: value, Timestamp: time.Now()}` under `key`, replacing
any previous entry wholesale. -/
def Cache.Set (c : Cache) (now : Int) (key value : String) : Cache :=
  { c with items := (key, ⟨value, now⟩) :: itemsDelete c.items key }

/-- `Cache.Size` (cache.go lines 56-61). -/
def Cache.Size (c : Cache) : Nat :=
  c.items.length

/-- `Cache.Cleanup` (cache.go lines 64-73): deletes every entry with
`now.Sub(e.Timestamp) > c.ttl` and keeps the rest. -/
def Cache.Cleanup (c : Cache) (now : Int) : Cache :=
  { c with items := c.items.filter (fun p => ¬ now - p.2.Timestamp > c.ttl) }

/-- The backing map has no repeated key (true of every Go map, and
preserved by `Set`, `Get` and `Cleanup`). -/
def CacheKeysUnique (c : Cache) : Prop :=
  (c.items.map Prod.fst).Nodup

end App

namespace Filters

/-- `URLFilter` from `internal/filters/url_filter.go`: per-domain rules.
An empty `AllowedPaths` allows every path; `BlockedPaths` takes priority. -/
structure URLFilter where
  Domain : String
  AllowedPaths : List String
  BlockedPaths : List String
deriving DecidableEq, Repr

/-- `strings.Contains(s, sub)`: `sub` occurs contiguously in `s`. -/
def strContains (s sub : String) : Bool :=
  decide (sub.toList <:+: s.toList)

/-- `FilterRegistry` holds the rules in registration order. -/
structure FilterRegistry where
  filters : List URLFilter
deriving DecidableEq, Repr

/-- `NewFilterRegistry`. -/
def NewFilterRegistry : FilterRegistry :=
  ⟨[]⟩

/-- `FilterRegistry.Register` (url_filter.go lines 265-267): appends the
rule after the ones already registered. -/
def FilterRegistry.Register (r : FilterRegistry) (f : URLFilter) : FilterRegistry :=
  ⟨r.filters ++ [f]⟩

/-- The matched-filter search in `ShouldProcess` (url_filter.go lines
272-278): the first registered rule whose `Domain` occurs as a substring
of the whole URL string. -/
def findFilter : List URLFilter → String → Option URLFilter
  | [], _ => none
  | f :: rest, urlStr =>
    if strContains urlStr f.Domain then some f else findFilter rest urlStr

/-- The body of `ShouldProcess` once a rule has matched (url_filter.go
lines 285-305): any blocked substring rejects; an empty allow list
accepts; otherwise some allowed substring must occur. -/
def applyFilter (f : URLFilter) (urlStr : String) : Bool :=
  if f.BlockedPaths.any (fun blocked => strContains urlStr blocked) then
    false
  else if f.AllowedPaths.isEmpty then
    true
  else
    f.AllowedPaths.any (fun allowed => strContains urlStr allowed)

/-- `FilterRegistry.ShouldProcess` (url_filter.go lines 270-306). -/
def FilterRegistry.ShouldProcess (r : FilterRegistry) (urlStr : String) : Bool :=
  match findFilter r.filters urlStr with
  | none => true
  | some f => applyFilter f urlStr

end Filters

namespace App

/-- A Go string as the source manipulates it: a sequence of bytes
(`len`, slicing and `+` in Go are byte-wise). -/
abbrev GoStr := List Nat

/-- The UTF-8 encoding of one character, as Go string literals store it. -/
def utf8Bytes (c : Char) : List Nat :=
  let n := c.toNat
  if n < 0x80 then
    [n]
  else if n < 0x800 then
    [0xC0 ||| (n >>> 6), 0x80 ||| (n &&& 0x3F)]
  else if n < 0x10000 then
    [0xE0 ||| (n >>> 12), 0x80 ||| ((n >>> 6) &&& 0x3F), 0x80 ||| (n &&& 0x3F)]
  else
    [0xF0 ||| (n >>> 18), 0x80 ||| ((n >>> 12) &&& 0x3F),
      0x80 ||| ((n >>> 6) &&& 0x3F), 0x80 ||| (n &&& 0x3F)]

/-- The bytes of a Go string literal. -/
def bytes (s : String) : GoStr :=
  s.data.flatMap utf8Bytes

/-- One pass of a `strings.Replacer` over a byte string: at each position
the first listed nonempty pattern that matches is replaced and scanning
resumes after it (Go replaces in target order, comparing patterns in
argument order, without overlapping).  Every step consumes at least one
byte, so the input length bounds the recursion; the structural `fuel`
argument makes that bound explicit and is never exhausted when started at
the input length. -/
def replaceMultiFuel (pairs : List (GoStr × GoStr)) : Nat → GoStr → GoStr
  | 0, l => l
  | _ + 1, [] => []
  | fuel + 1, b :: rest =>
    match pairs.find? (fun p => !p.1.isEmpty && p.1.isPrefixOf (b :: rest)) with
    | some p => p.2 ++ replaceMultiFuel pairs fuel (rest.drop (p.1.length - 1))
    | none => b :: replaceMultiFuel pairs fuel rest

/-- `strings.ReplaceAll s old new` is the single-pattern case of
`replaceMulti`. -/
def replaceMulti (pairs : List (GoStr × GoStr)) (l : GoStr) : GoStr :=
  replaceMultiFuel pairs l.length l

/-- The ASCII whitespace bytes `strings.TrimSpace` trims (the inputs in
question carry no non-ASCII whitespace at their ends). -/
def isGoSpace (b : Nat) : Bool :=
  b = 9 || b = 10 || b = 11 || b = 12 || b = 13 || b = 32

/-- `strings.TrimSpace` over bytes. -/
def goTrimSpace (s : GoStr) : GoStr :=
  ((s.dropWhile isGoSpace).reverse.dropWhile isGoSpace).reverse

/-- `stripTags` (feed_handler.go lines 1083-1090): the four-pattern
`strings.NewReplacer` pass, then `strings.ReplaceAll` of six inline tags
with the empty string, then `strings.TrimSpace`. -/
def stripTags (input : GoStr) : GoStr :=
  let text := replaceMulti
    [(bytes "<p>", bytes " "), (bytes "</p>", bytes " "),
      (bytes "<br>", bytes " "), (bytes "</br>", bytes " ")] input
  let text := [bytes "<strong>", bytes "</strong>", bytes "<em>",
      bytes "</em>", bytes "<h2>", bytes "</h2>"].foldl
    (fun t tag => replaceMulti [(tag, [])] t) text
  goTrimSpace text

/-- `summarizeHTML` (feed_handler.go lines 1074-1080): strip tags, then
`plain[:limit] + "..."` when `len(plain) > limit` — a byte slice. -/
def summarizeHTML (html : GoStr) (limit : Nat) : GoStr :=
  let plain := stripTags html
  if limit < plain.length then plain.take limit ++ bytes "..." else plain

/-- `strconv.Atoi`: optional sign, at least one decimal digit, nothing
else, 64-bit range; `none` is a non-nil error. -/
def digitVal (c : Char) : Option Nat :=
  if '0' ≤ c ∧ c ≤ '9' then some (c.toNat - '0'.toNat) else none

/-- The value of a nonempty all-digit character run. -/
def digitsVal (cs : List Char) : Option Nat :=
  if cs.isEmpty then none
  else cs.foldl (fun acc c => acc.bind fun n => (digitVal c).map fun d => n * 10 + d) (some 0)

/-- `strconv.Atoi`. -/
def Atoi (s : String) : Option Int :=
  let signed : Int × List Char :=
    match s.data with
    | '+' :: rest => (1, rest)
    | '-' :: rest => (-1, rest)
    | rest => (1, rest)
  match digitsVal signed.2 with
  | none => none
  | some n =>
    let v : Int := signed.1 * (n : Int)
    if v < -(2 ^ 63) ∨ 2 ^ 63 - 1 < v then none else some v

/-- The `limit` parsing of `FeedHandler.ServeHTTP` (feed_handler.go lines
62-69): start from 10 and take the parsed value only when `Atoi`
succeeds with a positive number. -/
def parseLimitServe (limitStr : String) : Int :=
  if limitStr ≠ "" then
    match Atoi limitStr with
    | some n => if 0 < n then n else 10
    | none => 10
  else 10

/-- The `limit` parsing of `Server.handleFeed` (main.go lines 101-107):
as above but the parsed value is also required to be at most 50. -/
def parseLimitMain (limitStr : String) : Int :=
  if limitStr ≠ "" then
    match Atoi limitStr with
    | some l => if 0 < l ∧ l ≤ 50 then l else 10
    | none => 10
  else 10

/-- The selection loop of `ServeHTTP` (feed_handler.go lines 100-124)
projected to item links: stop once `processedCount` reaches `limit`,
skip (and count) links rejected by the filter registry, admit the rest.
Returns the admitted links in order and the skip count. -/
def admitLoop (reg : Filters.FilterRegistry) (limit : Int) :
    List String → Int → Nat → List String × Nat
  | [], _, skipped => ([], skipped)
  | link :: rest, processedCount, skipped =>
    if limit ≤ processedCount then ([], skipped)
    else if link ≠ "" ∧ reg.ShouldProcess link = false then
      admitLoop reg limit rest processedCount (skipped + 1)
    else
      let tail := admitLoop reg limit rest (processedCount + 1) skipped
      (link :: tail.1, tail.2)

/-- `ServeHTTP`'s admitted links for a feed. -/
def serveAdmitted (reg : Filters.FilterRegistry) (limit : Int) (links : List String) :
    List String × Nat :=
  admitLoop reg limit links 0 0

/-- The item loop bound of `Server.handleFeed` (main.go lines 151-196)
projected to links: the range index `i` stops the loop at `limit`, and
linkless items are skipped without stopping the index. -/
def handleFeedAdmit (limit : Int) : List String → Int → List String
  | [], _ => []
  | link :: rest, i =>
    if limit ≤ i then []
    else if link = "" then handleFeedAdmit limit rest (i + 1)
    else link :: handleFeedAdmit limit rest (i + 1)

/-- The fields of a parsed `gofeed.Item` that `ProcessFeed` and
`processItemWithCtx` read. -/
structure GofeedItem where
  Title : String
  Link : String
  Content : String
deriving DecidableEq, Repr

/-- The input handed to the resolved extractor by `processItemWithCtx`:
`map[string]string{"html": item.Content}` or the bare link. -/
inductive ExtractorInput where
  | htmlContent (content : String)
  | urlLink (link : String)
deriving DecidableEq, Repr

/-- What an extractor call returns.  The call does network and
HTML-parsing work, so its behavior enters the model through the
environment below. -/
inductive ExtractOutcome where
  | ok (content : String) (images : List String)
  | err (msg : String)
deriving DecidableEq, Repr

/-- The external environment of one `ProcessFeed` run: the outcome of
each extractor call, the cache view each task's read observes (the cache
is shared and racy), and the goquery-based summary
`summarizeHTML(content, 300)` of the revision at feed_handler.go line
594, which runs an external HTML parser. -/
structure FeedEnv where
  extract : ExtractorInput → ExtractOutcome
  cacheGet : String → Option String
  describe : String → String

/-- `strings.TrimSpace` at the `String` level (title trimming). -/
def strTrimSpace (s : String) : String :=
  ⟨((s.data.dropWhile Char.isWhitespace).reverse.dropWhile Char.isWhitespace).reverse⟩

/-- The computed fields of the output `feeds.Item` built by
`buildFeedItem` (feed_handler.go lines 568-591).  `Id` (a fresh UUID) and
the `Created`/`Updated` clock fallbacks are fresh random/clock values no
claim mentions, and are omitted. -/
structure FeedsItem where
  Title : String
  Link : String
  Description : String
  Content : String
  EnclosureUrl : Option String
deriving DecidableEq, Repr

/-- `buildFeedItem` (feed_handler.go lines 568-591): trimmed title, link,
summary description, content, and the first image as enclosure. -/
def buildFeedItem (env : FeedEnv) (src : GofeedItem) (content : String)
    (images : List String) : FeedsItem :=
  { Title := strTrimSpace src.Title
    Link := src.Link
    Description := env.describe content
    Content := content
    EnclosureUrl := images.head? }

/-- The extraction half of `processItemWithCtx` (feed_handler.go lines
544-564): feed-provided HTML is preferred when it contains a `<`,
extractor errors become `extract failed`, empty content is an error, and
a success builds the item (the cache write it also performs does not
change the returned value). -/
def extractStep (env : FeedEnv) (item : GofeedItem) : Except String FeedsItem :=
  let outcome :=
    if item.Content ≠ "" ∧ Filters.strContains item.Content "<" then
      env.extract (ExtractorInput.htmlContent item.Content)
    else
      env.extract (ExtractorInput.urlLink item.Link)
  match outcome with
  | ExtractOutcome.err msg => Except.error ("extract failed: " ++ msg)
  | ExtractOutcome.ok content images =>
    if content = "" then Except.error "empty content"
    else Except.ok (buildFeedItem env item content images)

/-- `processItemWithCtx` (feed_handler.go lines 534-565): a missing link
is an error; a nonempty cached value short-circuits; otherwise extract. -/
def processItemWithCtx (env : FeedEnv) (item : GofeedItem) : Except String FeedsItem :=
  if item.Link = "" then Except.error "invalid item or missing link"
  else
    match env.cacheGet item.Link with
    | some cached =>
      if cached = "" then extractStep env item
      else Except.ok (buildFeedItem env item cached [])
    | none => extractStep env item

/-- The channel contents of `ProcessFeed` (feed_handler.go lines
497-524): one goroutine per item sends its successful result to
`itemChan`; `sched` is the order in which the tasks complete (any
permutation of the indices), and the drain after `wg.Wait()` yields the
sends in that order.  Failed items send nothing. -/
def runTasks (env : FeedEnv) (items : List GofeedItem) (sched : List Nat) :
    List FeedsItem :=
  sched.filterMap (fun i =>
    (items.get? i).bind (fun it => (processItemWithCtx env it).toOption))

/-- `FeedHandler.ProcessFeed` (feed_handler.go lines 474-531) after the
external fetch/parse produced `items`: collect the channel into the
output items, and report `no valid items processed` when nothing
succeeded. -/
def ProcessFeed (env : FeedEnv) (items : List GofeedItem) (sched : List Nat) :
    Except String (List FeedsItem) :=
  let collected := runTasks env items sched
  if collected.isEmpty then Except.error "no valid items processed"
  else Except.ok collected

/-- `\w` of the two cleanup regexps. -/
def isWordByte (b : Nat) : Bool :=
  (48 ≤ b && b ≤ 57) || (65 ≤ b && b ≤ 90) || (97 ≤ b && b ≤ 122) || b = 95

/-- `\s` of RE2: `[\t\n\f\r ]`. -/
def isSpaceByte (b : Nat) : Bool :=
  b = 9 || b = 10 || b = 12 || b = 13 || b = 32

/-- A match of `<\/\w+>` (or `<\/\w+\s*>` when `allowSpace`) at the head
of `s`: its length.  `60`, `47`, `62` are `<`, `/`, `>`. -/
def findCloseLen (allowSpace : Bool) (s : GoStr) : Option Nat :=
  match s with
  | 60 :: 47 :: rest =>
    let w := rest.takeWhile isWordByte
    if w.isEmpty then none
    else
      let rest2 := rest.drop w.length
      let sp := if allowSpace then rest2.takeWhile isSpaceByte else []
      match rest2.drop sp.length with
      | 62 :: _ => some (2 + w.length + sp.length + 1)
      | _ => none
  | _ => none

/-- A match of the empty-tag-pair regexp `<\w+\s*(?:[^>]*)>\s*<\/\w+>`
(feed_handler.go line 429; line 430 adds `\s*` before the final `>`) at
the head of `s`: its length.  The opening chunk is `<`, a word byte, then
everything up to the first `>` (every quantifier inside it ranges over
non-`>` bytes, so the first `>` closes it); the `\s*` run and the closing
tag are forced because `<` is neither a word nor a space byte. -/
def matchEmptyPairAt (allowSpace : Bool) (s : GoStr) : Option Nat :=
  match s with
  | 60 :: b :: rest =>
    if isWordByte b then
      let inner := (b :: rest).takeWhile (fun x => x ≠ 62)
      match (b :: rest).drop inner.length with
      | 62 :: rest2 =>
        let sp := rest2.takeWhile isSpaceByte
        match findCloseLen allowSpace (rest2.drop sp.length) with
        | some clen => some (1 + inner.length + 1 + sp.length + clen)
        | none => none
      | _ => none
    else none
  | _ => none

/-- `regexp.ReplaceAllString(s, "")` for the empty-tag-pair pattern:
leftmost non-overlapping matches removed in one pass (a match always
starts with `<`, so it has positive length and the scan resumes
`len - 1` bytes into the tail).  As in `replaceMultiFuel`, every step
consumes at least one byte and the structural `fuel` bound is never
exhausted when started at the input length. -/
def regexReplaceEmptyFuel (allowSpace : Bool) : Nat → GoStr → GoStr
  | 0, l => l
  | _ + 1, [] => []
  | fuel + 1, b :: rest =>
    match matchEmptyPairAt allowSpace (b :: rest) with
    | some len => regexReplaceEmptyFuel allowSpace fuel (rest.drop (len - 1))
    | none => b :: regexReplaceEmptyFuel allowSpace fuel rest

/-- The single-pass global replacement, fuelled by the input length. -/
def regexReplaceEmpty (allowSpace : Bool) (l : GoStr) : GoStr :=
  regexReplaceEmptyFuel allowSpace l.length l

/-- The final two cleanup substitutions of `cleanHTMLContent`
(feed_handler.go lines 428-430), applied in source order. -/
def removeEmptyTagPairs (htmlStr : GoStr) : GoStr :=
  regexReplaceEmpty true (regexReplaceEmpty false htmlStr)

end App

namespace AppCacheLemmas

open App

/-- A key absent from the map keys is not found. -/
theorem itemsFind_none_of_not_mem (l : CacheItems) (key : String)
    (h : key ∉ l.map Prod.fst) : itemsFind l key = none := by
  induction l with
  | nil => rfl
  | cons q rest ih =>
    obtain ⟨k, e⟩ := q
    simp only [List.map_cons, List.mem_cons, not_or] at h
    simp [itemsFind, Ne.symm h.1, ih h.2]

/-- Filtering cannot make an absent key appear. -/
theorem itemsFind_filter_none (p : String × CachedEntry → Bool) (l : CacheItems)
    (key : String) (h : key ∉ l.map Prod.fst) :
    itemsFind (l.filter p) key = none := by
  apply itemsFind_none_of_not_mem
  intro hmem
  apply h
  obtain ⟨q, hq, hfst⟩ := List.mem_map.mp hmem
  exact List.mem_map.mpr ⟨q, (List.mem_filter.mp hq).1, hfst⟩

/-- On a map with unique keys, lookup after `filter` keeps an entry
exactly when the predicate holds of it. -/
theorem itemsFind_filter (p : String × CachedEntry → Bool) (l : CacheItems)
    (key : String) (h : (l.map Prod.fst).Nodup) :
    itemsFind (l.filter p) key =
      (match itemsFind l key with
        | some e => if p (key, e) then some e else none
        | none => none) := by
  induction l with
  | nil => rfl
  | cons q rest ih =>
    obtain ⟨k, e⟩ := q
    simp only [List.map_cons, List.nodup_cons] at h
    by_cases hk : k = key
    · subst hk
      by_cases hp : p (k, e)
      · simp [List.filter_cons, hp, itemsFind]
      · rw [List.filter_cons, if_neg hp, itemsFind_filter_none p rest k h.1]
        simp [itemsFind, hp]
    · by_cases hp : p (k, e)
      · simp [List.filter_cons, hp, itemsFind, hk, ih h.2]
      · simp [List.filter_cons, hp, itemsFind, hk, ih h.2]

/-- Deleting a key removes it from lookup. -/
theorem itemsFind_delete_self (l : CacheItems) (key : String) :
    itemsFind (itemsDelete l key) key = none := by
  apply itemsFind_none_of_not_mem
  intro hmem
  obtain ⟨q, hq, hfst⟩ := List.mem_map.mp hmem
  have hmem2 := List.mem_filter.mp hq
  simp only [decide_eq_true_eq] at hmem2
  exact hmem2.2 hfst

end AppCacheLemmas

/-- C2: on a cache with a nonnegative TTL and unique keys, `Set` followed
by an immediate `Get` of the same key returns the value; a `Get` of an
entry strictly older than the TTL reports it absent and removes it; and
`Cleanup` keeps exactly the entries that are not strictly older than the
TTL. -/
theorem cache_ttl_semantics (c : App.Cache) (now : Int) (k v : String)
    (httl : 0 ≤ c.ttl) (hkeys : App.CacheKeysUnique c) :
    (((c.Set now k v).Get now k).1 = some v)
    ∧ (∀ e, App.itemsFind c.items k = some e → c.ttl < now - e.Timestamp →
        (c.Get now k).1 = none ∧ App.itemsFind ((c.Get now k).2).items k = none)
    ∧ (∀ key, App.itemsFind ((c.Cleanup now).items) key =
        (match App.itemsFind c.items key with
          | some e => if c.ttl < now - e.Timestamp then none else some e
          | none => none)) := by
  refine ⟨?_, ?_, ?_⟩
  · simp [App.Cache.Get, App.Cache.Set, App.itemsFind, not_lt.mpr httl]
  · intro e he hstale
    have hget : c.Get now k = (none, { c with items := App.itemsDelete c.items k }) := by
      unfold App.Cache.Get
      simp only [he]
      rw [if_pos hstale]
    rw [hget]
    exact ⟨rfl, AppCacheLemmas.itemsFind_delete_self c.items k⟩
  · intro key
    rw [App.Cache.Cleanup]
    rw [AppCacheLemmas.itemsFind_filter _ c.items key hkeys]
    cases hfind : App.itemsFind c.items key with
    | none => rfl
    | some e =>
      by_cases hst : c.ttl < now - e.Timestamp
      · simp [hst]
      · simp [hst]

/-- Witness for C2: a concrete two-entry cache with TTL 5 at time 16. -/
theorem cache_ttl_semantics_witness :
    ((((App.Cache.mk [("a", ⟨"x", 0⟩), ("b", ⟨"y", 10⟩)] 5).Set 16 "k" "v").Get 16 "k").1
      = some "v")
    ∧ (∀ e, App.itemsFind (App.Cache.mk [("a", ⟨"x", 0⟩), ("b", ⟨"y", 10⟩)] 5).items "k"
          = some e →
        (5 : Int) < 16 - e.Timestamp →
        ((App.Cache.mk [("a", ⟨"x", 0⟩), ("b", ⟨"y", 10⟩)] 5).Get 16 "k").1 = none ∧
          App.itemsFind (((App.Cache.mk [("a", ⟨"x", 0⟩), ("b", ⟨"y", 10⟩)] 5).Get
            16 "k").2).items "k" = none)
    ∧ (∀ key, App.itemsFind
        (((App.Cache.mk [("a", ⟨"x", 0⟩), ("b", ⟨"y", 10⟩)] 5).Cleanup 16).items) key =
        (match App.itemsFind (App.Cache.mk [("a", ⟨"x", 0⟩), ("b", ⟨"y", 10⟩)] 5).items key with
          | some e => if (5 : Int) < 16 - e.Timestamp then none else some e
          | none => none)) :=
  cache_ttl_semantics (App.Cache.mk [("a", ⟨"x", 0⟩), ("b", ⟨"y", 10⟩)] 5) 16 "k" "v"
    (by decide) (by unfold App.CacheKeysUnique; decide)


/-- C9: for every fixed registration state, `Registry.ForURL` returns the
same result for every pair of URL arguments — the registered default when
one exists, otherwise the always-failing stub; the URL argument never
influences dispatch. -/
theorem forURL_ignores_url {E : Type} (r : Extractors.Registry E) (url₁ url₂ : String) :
    r.ForURL url₁ = r.ForURL url₂ ∧
    r.ForURL url₁ =
      (match r.defaultExtractor with
        | some e => Extractors.ForURLResult.registered e
        | none => Extractors.ForURLResult.stub) :=
  ⟨rfl, rfl⟩

namespace ExtractorsSpec

/-- One-step unfolding of `resolveHost` at a nonempty host. -/
theorem resolveHost_cons_eq {E : Type} (m : List (Host × E)) (lbl : String) (rest : Host) :
    resolveHost m (lbl :: rest)
      = (match lookupDomain m (lbl :: rest) with
        | some e2 => some e2
        | none =>
          match lookupDomain m (toggleWWW (lbl :: rest)) with
          | some e2 => some e2
          | none => resolveHost m rest) :=
  rfl

/-- Lookup in a one-entry domain map. -/
theorem lookupDomain_single {E : Type} (d : Host) (e : E) (key : Host) :
    lookupDomain [(d, e)] key = if d = key then some e else none := by
  simp [lookupDomain]

/-- A domain map holding exactly `(d, e)` resolves every host of the form
`t ++ d` to `e`: the parent-stripping loop reaches `d` and matches. -/
theorem resolveHost_suffix {E : Type} (e : E) (d : Host) (hd : d ≠ []) :
    ∀ t : Host, resolveHost [(d, e)] (t ++ d) = some e := by
  intro t
  induction t with
  | nil =>
    obtain ⟨lbl, rest, hdef⟩ : ∃ lbl rest, d = lbl :: rest := by
      cases d with
      | nil => exact absurd rfl hd
      | cons a b => exact ⟨a, b, rfl⟩
    rw [List.nil_append]
    conv_lhs => rw [hdef]
    rw [resolveHost_cons_eq, ← hdef, lookupDomain_single, if_pos rfl]
  | cons lbl t ih =>
    have h1 : d ≠ lbl :: (t ++ d) := by
      intro h
      have := congrArg List.length h
      simp at this
      omega
    show resolveHost [(d, e)] (lbl :: (t ++ d)) = some e
    rw [resolveHost_cons_eq, lookupDomain_single, if_neg h1]
    by_cases hw : lbl = "www"
    · subst hw
      have htog : toggleWWW ("www" :: (t ++ d)) = t ++ d := by
        simp [toggleWWW]
      rw [htog, lookupDomain_single]
      by_cases ht : d = t ++ d
      · rw [if_pos ht]
      · rw [if_neg ht]
        exact ih
    · have htog : toggleWWW (lbl :: (t ++ d)) = "www" :: lbl :: (t ++ d) := by
        simp [toggleWWW, hw]
      have h3 : d ≠ "www" :: lbl :: (t ++ d) := by
        intro h
        have := congrArg List.length h
        simp at this
        omega
      rw [htog, lookupDomain_single, if_neg h3]
      exact ih

/-- C1 (modelled from the spec, section 4.1): when a domain-specific
extractor is registered for a (normalized, nonempty) domain and a default
is also set, resolving a host equal to that domain, its `www.` variant,
or any subdomain of it returns the domain-specific extractor, never the
default. -/
theorem registered_domain_wins {E : Type} (e dflt : E) (d sub : Host)
    (hd : d ≠ []) (hlc : d.map lowerLabel = d) :
    (RegistryM.mk [(d, e)] (some dflt)).ForURLHost d
      = Extractors.ForURLResult.registered e ∧
    (RegistryM.mk [(d, e)] (some dflt)).ForURLHost ("www" :: d)
      = Extractors.ForURLResult.registered e ∧
    (RegistryM.mk [(d, e)] (some dflt)).ForURLHost (sub ++ d)
      = Extractors.ForURLResult.registered e := by
  have hres := resolveHost_suffix e d hd
  have h0 : resolveHost [(d, e)] d = some e := by
    have := hres []
    rwa [List.nil_append] at this
  have hwww : lowerLabel "www" = "www" := by decide
  refine ⟨?_, ?_, ?_⟩
  · simp [RegistryM.ForURLHost, hlc, h0]
  · have hmap : ("www" :: d).map lowerLabel = "www" :: d := by
      simp [hwww, hlc]
    have h1 : d ≠ "www" :: d := by
      intro h
      have := congrArg List.length h
      simp at this
    have htog : toggleWWW ("www" :: d) = d := by
      simp [toggleWWW]
    have hstep : resolveHost [(d, e)] ("www" :: d) = some e := by
      rw [resolveHost_cons_eq, lookupDomain_single, if_neg h1, htog,
        lookupDomain_single, if_pos rfl]
    simp [RegistryM.ForURLHost, hmap, hstep]
  · have hmap : (sub ++ d).map lowerLabel = sub.map lowerLabel ++ d := by
      rw [List.map_append, hlc]
    simp [RegistryM.ForURLHost, hmap, hres (sub.map lowerLabel)]

/-- Witness for C1: the registration state of spec Scenario D —
`news.example` bound to extractor `1`, default `0` — resolves the
domain, its `www.` variant, and the subdomain `sub.news.example` to
extractor `1`. -/
theorem registered_domain_wins_witness :
    (RegistryM.mk [(["news", "example"], 1)] (some 0)).ForURLHost ["news", "example"]
      = Extractors.ForURLResult.registered 1 ∧
    (RegistryM.mk [(["news", "example"], 1)] (some 0)).ForURLHost ["www", "news", "example"]
      = Extractors.ForURLResult.registered 1 ∧
    (RegistryM.mk [(["news", "example"], 1)] (some 0)).ForURLHost (["sub"] ++ ["news", "example"])
      = Extractors.ForURLResult.registered 1 :=
  registered_domain_wins 1 0 ["news", "example"] ["sub"] (by decide) (by decide)

end ExtractorsSpec

namespace Filters

/-- C3: whenever the rule matched for a URL has a blocked path substring
occurring in the URL, `ShouldProcess` rejects it — whatever its allowed
paths say. -/
theorem blocked_overrides_allowed (r : FilterRegistry) (urlStr : String)
    (f : URLFilter) (b : String)
    (hmatch : findFilter r.filters urlStr = some f)
    (hb : b ∈ f.BlockedPaths) (hsub : strContains urlStr b = true) :
    r.ShouldProcess urlStr = false := by
  unfold FilterRegistry.ShouldProcess
  rw [hmatch]
  unfold applyFilter
  have hany : f.BlockedPaths.any (fun blocked => strContains urlStr blocked) = true :=
    List.any_eq_true.mpr ⟨b, hb, hsub⟩
  simp [hany]

/-- Witness for C3: the spec's example — a rule with blocked path
`/spor/` and allowed path `/ekonomi/` rejects a URL containing both. -/
theorem blocked_overrides_allowed_witness :
    (FilterRegistry.mk [⟨"dunya.com", ["/ekonomi/"], ["/spor/"]⟩]).ShouldProcess
      "https://www.dunya.com/spor/mac/ekonomi/analiz" = false :=
  blocked_overrides_allowed
    (FilterRegistry.mk [⟨"dunya.com", ["/ekonomi/"], ["/spor/"]⟩])
    "https://www.dunya.com/spor/mac/ekonomi/analiz"
    ⟨"dunya.com", ["/ekonomi/"], ["/spor/"]⟩ "/spor/"
    (by decide) (by decide) (by decide)

/-- C10: rule selection tests each rule's domain as a plain substring of
the whole URL string, in registration order; the first rule whose domain
occurs is the one applied, and rules registered after it are never
consulted. -/
theorem first_matching_rule_applies (fs gs : List URLFilter) (f : URLFilter)
    (urlStr : String)
    (hf : strContains urlStr f.Domain = true)
    (hnone : ∀ g ∈ fs, strContains urlStr g.Domain = false) :
    findFilter (fs ++ f :: gs) urlStr = some f ∧
    (FilterRegistry.mk (fs ++ f :: gs)).ShouldProcess urlStr = applyFilter f urlStr := by
  have hfind : findFilter (fs ++ f :: gs) urlStr = some f := by
    induction fs with
    | nil => simp [findFilter, hf]
    | cons g rest ih =>
      have hg : strContains urlStr g.Domain = false := hnone g (by simp)
      have hrest : ∀ g₂ ∈ rest, strContains urlStr g₂.Domain = false := by
        intro g₂ hg₂
        exact hnone g₂ (by simp [hg₂])
      simp [findFilter, hg, ih hrest]
  refine ⟨hfind, ?_⟩
  unfold FilterRegistry.ShouldProcess
  rw [hfind]

/-- Witness for C10: the domain `dunya.com` occurring only in the URL's
path still selects that rule — the first registered one — and a later
conflicting rule for the same domain is ignored (the URL is accepted even
though the later rule would block it). -/
theorem first_matching_rule_applies_witness :
    findFilter
      [⟨"ekonomim.com", [], ["/spor/"]⟩, ⟨"dunya.com", [], []⟩,
        ⟨"dunya.com", [], ["/page/"]⟩] "https://mirror.example/page/dunya.com-news"
      = some ⟨"dunya.com", [], []⟩ ∧
    (FilterRegistry.mk
        [⟨"ekonomim.com", [], ["/spor/"]⟩, ⟨"dunya.com", [], []⟩,
          ⟨"dunya.com", [], ["/page/"]⟩]).ShouldProcess
      "https://mirror.example/page/dunya.com-news"
      = applyFilter ⟨"dunya.com", [], []⟩ "https://mirror.example/page/dunya.com-news" :=
  first_matching_rule_applies [⟨"ekonomim.com", [], ["/spor/"]⟩]
    [⟨"dunya.com", [], ["/page/"]⟩] ⟨"dunya.com", [], []⟩
    "https://mirror.example/page/dunya.com-news" (by decide) (by decide)

end Filters

namespace AppFeedLemmas

/-- `Except.toOption` inverts to `Except.ok`. -/
theorem except_toOption_eq_some {ε α : Type} (e : Except ε α) (x : α) :
    e.toOption = some x ↔ e = Except.ok x := by
  cases e with
  | error a => simp [Except.toOption]
  | ok a => simp [Except.toOption]

/-- Indexing a list by `range` of its length and filter-mapping equals
filter-mapping the list itself, in order. -/
theorem filterMap_range_get {α β : Type} (f : α → Option β) :
    ∀ l : List α,
      (List.range l.length).filterMap (fun i => (l.get? i).bind f) = l.filterMap f := by
  intro l
  induction l with
  | nil => simp
  | cons a tl ih =>
    rw [List.length_cons, List.range_succ_eq_map, List.filterMap_cons]
    have hhead : ((a :: tl).get? 0).bind f = f a := rfl
    have htail :
        ((List.range tl.length).map Nat.succ).filterMap
            (fun i => ((a :: tl).get? i).bind f)
          = (List.range tl.length).filterMap (fun i => (tl.get? i).bind f) := by
      rw [List.filterMap_map]
      rfl
    rw [hhead, htail, ih]
    cases hfa : f a <;> simp [hfa]

end AppFeedLemmas

/-- C5 (amended): per-item failures never remove other items: whenever at
least one item of the feed processes successfully, `ProcessFeed` succeeds
and its output holds exactly the successfully processed items — items
whose extractor fails are absent, all successes are present — whatever
the completion schedule.  (When no item succeeds, `ProcessFeed` instead
returns the error `no valid items processed`.) -/
theorem processFeed_drops_failures (env : App.FeedEnv) (items : List App.GofeedItem)
    (sched : List Nat) (hsched : sched.Perm (List.range items.length))
    (j : Nat) (hj : j < items.length) (y : App.FeedsItem)
    (hok : App.processItemWithCtx env (items.get ⟨j, hj⟩) = Except.ok y) :
    ∃ out, App.ProcessFeed env items sched = Except.ok out ∧
      ∀ x, x ∈ out ↔ ∃ k, ∃ hk : k < items.length,
        App.processItemWithCtx env (items.get ⟨k, hk⟩) = Except.ok x := by
  have hmem : ∀ x, x ∈ App.runTasks env items sched ↔
      ∃ k, ∃ hk : k < items.length,
        App.processItemWithCtx env (items.get ⟨k, hk⟩) = Except.ok x := by
    intro x
    unfold App.runTasks
    rw [List.mem_filterMap]
    constructor
    · rintro ⟨i, hi, hbind⟩
      rw [Option.bind_eq_some] at hbind
      obtain ⟨it, hget, htoOpt⟩ := hbind
      have hilen : i < items.length := by
        have hmemr := hsched.mem_iff.mp hi
        exact List.mem_range.mp hmemr
      have hit : items.get ⟨i, hilen⟩ = it := by
        have := List.get?_eq_get (l := items) hilen
        rw [this] at hget
        exact Option.some.inj hget
      refine ⟨i, hilen, ?_⟩
      rw [hit]
      exact (AppFeedLemmas.except_toOption_eq_some _ _).mp htoOpt
    · rintro ⟨k, hk, hkx⟩
      refine ⟨k, ?_, ?_⟩
      · exact hsched.mem_iff.mpr (List.mem_range.mpr hk)
      · rw [List.get?_eq_get (l := items) hk]
        exact (AppFeedLemmas.except_toOption_eq_some _ _).mpr hkx
  have hy : y ∈ App.runTasks env items sched := (hmem y).mpr ⟨j, hj, hok⟩
  have hnonempty : ¬ (App.runTasks env items sched).isEmpty = true := by
    rw [List.isEmpty_iff]
    exact List.ne_nil_of_mem hy
  refine ⟨App.runTasks env items sched, ?_, hmem⟩
  unfold App.ProcessFeed
  rw [if_neg hnonempty]

/-- Witness for C5: a two-item feed where one item's extractor fails and
the other succeeds, with the failing task completing last. -/
theorem processFeed_drops_failures_witness :
    ∃ out,
      App.ProcessFeed
        ⟨fun inp => match inp with
          | App.ExtractorInput.urlLink "https://news.example/ok" =>
            App.ExtractOutcome.ok "<p>body</p>" ["https://news.example/img.jpg"]
          | _ => App.ExtractOutcome.err "not found",
          fun _ => none, fun s => s⟩
        [⟨"bad", "https://news.example/bad", ""⟩, ⟨"good", "https://news.example/ok", ""⟩]
        [1, 0]
        = Except.ok out ∧
      ∀ x, x ∈ out ↔ ∃ k, ∃ hk : k <
          ([⟨"bad", "https://news.example/bad", ""⟩,
            ⟨"good", "https://news.example/ok", ""⟩] : List App.GofeedItem).length,
        App.processItemWithCtx
          ⟨fun inp => match inp with
            | App.ExtractorInput.urlLink "https://news.example/ok" =>
              App.ExtractOutcome.ok "<p>body</p>" ["https://news.example/img.jpg"]
            | _ => App.ExtractOutcome.err "not found",
            fun _ => none, fun s => s⟩
          (([⟨"bad", "https://news.example/bad", ""⟩,
            ⟨"good", "https://news.example/ok", ""⟩] : List App.GofeedItem).get ⟨k, hk⟩)
          = Except.ok x :=
  processFeed_drops_failures _ _ [1, 0] (by decide) 1 (by decide)
    ⟨"good", "https://news.example/ok", "<p>body</p>", "<p>body</p>",
      some "https://news.example/img.jpg"⟩ (by rfl)

/-- C5 counterexample: a feed whose only item's extractor fails.  The item
is dropped, the output is empty, and `ProcessFeed` returns an error
instead of succeeding. -/
theorem processFeed_all_failed_is_error :
    App.ProcessFeed
      ⟨fun _ => App.ExtractOutcome.err "not found", fun _ => none, fun s => s⟩
      [⟨"title", "https://news.example/a", ""⟩] [0]
      = Except.error "no valid items processed" := rfl

/-- C6 (amended): the output lists items in task completion order — the
channel drain appends results as sent.  Under a completion schedule equal
to the input order the successes appear in input feed order; an
out-of-order schedule permutes the output the same way (see the
counterexample). -/
theorem output_follows_completion_order (env : App.FeedEnv)
    (items : List App.GofeedItem) :
    (∀ sched, App.runTasks env items sched
      = sched.filterMap (fun i => (items.get? i).bind
          (fun it => (App.processItemWithCtx env it).toOption)))
    ∧ App.runTasks env items (List.range items.length)
      = items.filterMap (fun it => (App.processItemWithCtx env it).toOption) := by
  refine ⟨fun sched => rfl, ?_⟩
  unfold App.runTasks
  exact AppFeedLemmas.filterMap_range_get _ items

/-- C6 counterexample: a two-item feed whose tasks complete in reverse
order emits the items reversed — completion order leaks into the output,
so the output does not match input feed order for every schedule. -/
theorem completion_order_leaks :
    App.runTasks
      ⟨fun inp => match inp with
        | App.ExtractorInput.urlLink l => App.ExtractOutcome.ok ("<p>" ++ l ++ "</p>") []
        | App.ExtractorInput.htmlContent c => App.ExtractOutcome.ok c [],
        fun _ => none, fun s => s⟩
      [⟨"A", "https://news.example/a", ""⟩, ⟨"B", "https://news.example/b", ""⟩]
      [1, 0]
      = [⟨"B", "https://news.example/b", "<p>https://news.example/b</p>",
          "<p>https://news.example/b</p>", none⟩,
        ⟨"A", "https://news.example/a", "<p>https://news.example/a</p>",
          "<p>https://news.example/a</p>", none⟩]
    ∧ App.runTasks
      ⟨fun inp => match inp with
        | App.ExtractorInput.urlLink l => App.ExtractOutcome.ok ("<p>" ++ l ++ "</p>") []
        | App.ExtractorInput.htmlContent c => App.ExtractOutcome.ok c [],
        fun _ => none, fun s => s⟩
      [⟨"A", "https://news.example/a", ""⟩, ⟨"B", "https://news.example/b", ""⟩]
      [0, 1]
      = [⟨"A", "https://news.example/a", "<p>https://news.example/a</p>",
          "<p>https://news.example/a</p>", none⟩,
        ⟨"B", "https://news.example/b", "<p>https://news.example/b</p>",
          "<p>https://news.example/b</p>", none⟩]
    ∧ (⟨"A", "https://news.example/a", "<p>https://news.example/a</p>",
          "<p>https://news.example/a</p>", none⟩ : App.FeedsItem)
        ≠ ⟨"B", "https://news.example/b", "<p>https://news.example/b</p>",
          "<p>https://news.example/b</p>", none⟩ := by
  refine ⟨rfl, rfl, by decide⟩

set_option maxRecDepth 8000 in
/-- C7: the summary truncation is a byte slice: 299 one-byte characters
followed by the two-byte UTF-8 character `é` (bytes `C3 A9`), truncated
at limit 300, is cut between the two bytes of `é` — the output keeps the
orphan lead byte `C3` and appends the ellipsis, so truncation split a
multi-byte character. -/
theorem summarize_splits_multibyte :
    App.summarizeHTML (List.replicate 299 97 ++ App.utf8Bytes 'é') 300
      = List.replicate 299 97 ++ [195] ++ App.bytes "..."
    ∧ App.utf8Bytes 'é' = [195, 169] := by
  constructor
  · decide
  · rfl

namespace AppLimitLemmas

/-- The `ServeHTTP` selection loop admits at most `limit - processedCount`
more items. -/
theorem admitLoop_length_le (reg : Filters.FilterRegistry) (limit : Int) :
    ∀ (links : List String) (processedCount : Int) (skipped : Nat),
      (App.admitLoop reg limit links processedCount skipped).1.length
        ≤ (limit - processedCount).toNat := by
  intro links
  induction links with
  | nil =>
    intro p s
    simp [App.admitLoop]
  | cons link rest ih =>
    intro p s
    unfold App.admitLoop
    by_cases hstop : limit ≤ p
    · rw [if_pos hstop]
      simp
    · rw [if_neg hstop]
      by_cases hskip : link ≠ "" ∧ reg.ShouldProcess link = false
      · rw [if_pos hskip]
        exact ih p (s + 1)
      · rw [if_neg hskip]
        simp only [List.length_cons]
        have hb := ih (p + 1) s
        omega

/-- The `handleFeed` loop admits at most `limit - i` more items. -/
theorem handleFeedAdmit_length_le (limit : Int) :
    ∀ (links : List String) (i : Int),
      (App.handleFeedAdmit limit links i).length ≤ (limit - i).toNat := by
  intro links
  induction links with
  | nil =>
    intro i
    simp [App.handleFeedAdmit]
  | cons link rest ih =>
    intro i
    unfold App.handleFeedAdmit
    by_cases hstop : limit ≤ i
    · rw [if_pos hstop]
      simp
    · rw [if_neg hstop]
      by_cases hempty : link = ""
      · rw [if_pos hempty]
        have hb := ih (i + 1)
        omega
      · rw [if_neg hempty]
        simp only [List.length_cons]
        have hb := ih (i + 1)
        omega

end AppLimitLemmas

/-- C8 (amended): `limit` defaults to 10 when the parameter is absent,
non-numeric, or non-positive, and is always positive; `main.go`
additionally sends any value above 50 back to the default 10 (a fallback,
not a clamp), so its effective limit never exceeds 50; the `ServeHTTP`
parser applies no maximum at all; and in both loops the number of items
admitted never exceeds the effective limit. -/
theorem limit_parsing_bounds :
    (App.parseLimitServe "" = 10 ∧ App.parseLimitMain "" = 10)
    ∧ (∀ s, App.Atoi s = none →
        App.parseLimitServe s = 10 ∧ App.parseLimitMain s = 10)
    ∧ (∀ s n, App.Atoi s = some n → n ≤ 0 →
        App.parseLimitServe s = 10 ∧ App.parseLimitMain s = 10)
    ∧ (∀ s, 0 < App.parseLimitServe s)
    ∧ (∀ s, 0 < App.parseLimitMain s ∧ App.parseLimitMain s ≤ 50)
    ∧ (∀ reg limit links,
        (App.serveAdmitted reg limit links).1.length ≤ limit.toNat)
    ∧ (∀ limit links,
        (App.handleFeedAdmit limit links 0).length ≤ limit.toNat)
    ∧ (∀ s links, (App.handleFeedAdmit (App.parseLimitMain s) links 0).length ≤ 50) := by
  have hmain : ∀ s, 0 < App.parseLimitMain s ∧ App.parseLimitMain s ≤ 50 := by
    intro s
    unfold App.parseLimitMain
    split
    · split
      · split
        · omega
        · omega
      · omega
    · omega
  refine ⟨⟨rfl, rfl⟩, ?_, ?_, ?_, hmain, ?_, ?_, ?_⟩
  · intro s hnone
    constructor
    · unfold App.parseLimitServe
      split
      · simp [hnone]
      · rfl
    · unfold App.parseLimitMain
      split
      · simp [hnone]
      · rfl
  · intro s n hsome hn
    constructor
    · unfold App.parseLimitServe
      split
      · simp only [hsome]
        rw [if_neg (by omega)]
      · rfl
    · unfold App.parseLimitMain
      split
      · simp only [hsome]
        rw [if_neg (by omega)]
      · rfl
  · intro s
    unfold App.parseLimitServe
    split
    · split
      · split
        · omega
        · omega
      · omega
    · omega
  · intro reg limit links
    have hb := AppLimitLemmas.admitLoop_length_le reg limit links 0 0
    unfold App.serveAdmitted
    omega
  · intro limit links
    have hb := AppLimitLemmas.handleFeedAdmit_length_le limit links 0
    omega
  · intro s links
    have h1 := AppLimitLemmas.handleFeedAdmit_length_le (App.parseLimitMain s) links 0
    have h2 := hmain s
    omega

/-- C8 counterexample: `ServeHTTP` accepts `limit=1000000` unchanged and
admits 51 items for `limit=51` (no maximum is ever applied), while
`main.go` maps the over-the-maximum value 60 to the default 10 rather
than clamping it to its maximum, 50. -/
theorem limit_not_clamped :
    App.parseLimitServe "1000000" = 1000000
    ∧ App.parseLimitMain "60" = 10
    ∧ App.parseLimitMain "50" = 50
    ∧ (App.serveAdmitted (Filters.FilterRegistry.mk []) (App.parseLimitServe "51")
        (List.replicate 51 "https://news.example/a")).1.length = 51 := by
  refine ⟨by decide, by decide, by decide, by decide⟩

set_option maxRecDepth 4000 in
/-- C4: the closing cleanup of `cleanHTMLContent` is not idempotent.  For
the input fragment `<div><p></p></div>` the goquery stage removes the
empty `<p>` (the `<div>`, visited before its child is removed, is kept)
and serializes the document to
`<html><head></head><body><div></div></body></html>`; the two regexp
passes below then collapse it to `<html></html>`, which is the function's
return value.  Re-sanitizing that value re-serializes it to
`<html><head></head><body></body></html>`, and the same two passes erase
it entirely: the first removes `<head></head>` and `<body></body>`, and
the second matches the remaining `<html></html>` whole.  So the second
application returns the empty string, not the first application's
output. -/
theorem clean_html_regex_collapse :
    App.removeEmptyTagPairs
        (App.bytes "<html><head></head><body><div></div></body></html>")
      = App.bytes "<html></html>"
    ∧ App.removeEmptyTagPairs (App.bytes "<html><head></head><body></body></html>")
      = ([] : App.GoStr) := by
  constructor
  · decide
  · decide
